import Mathlib

/-!
Verification of the interval-coverage cache and batch-fetch client of
`gmail_search/gmail_search.py` (Gmail Search CLI).

Timestamps are modelled as integers (`Int`): the source stores
`pendulum.DateTime` values and compares them (directly, or via their ISO-8601
text form in SQLite, which is order-isomorphic for a fixed offset); all the
code under study uses only the ordering, `min` and `max` of timestamps, so a
linearly ordered `Int` is a faithful shallow embedding of that use.
-/

namespace GmailSearch

/-- Embedding of the `DateRange` dataclass (gmail_search.py lines 30-47):
a closed range of timestamps with fields `start` and `end` (the latter is
spelled `end_` because `end` is a Lean keyword). -/
structure DateRange where
  start : Int
  end_ : Int
deriving DecidableEq, Repr

/-- Embedding of `DateRange.overlaps` (line 37-39):
`self.start <= other.end and self.end >= other.start`. -/
def DateRange.overlaps (a b : DateRange) : Bool :=
  decide (a.start ≤ b.end_) && decide (a.end_ ≥ b.start)

/-- The merged range built by `DateRange.merge` once the overlap guard has
passed (lines 45-47): `start=min(self.start, other.start)`,
`end=max(self.end, other.end)`. -/
def DateRange.mergeTotal (a b : DateRange) : DateRange :=
  ⟨min a.start b.start, max a.end_ b.end_⟩

/-- Embedding of `DateRange.merge` (lines 41-47).  The source raises
`ValueError("Cannot merge non-overlapping ranges")` when the ranges do not
overlap; the raising path is modelled as `none`. -/
def DateRange.merge (a b : DateRange) : Option DateRange :=
  if a.overlaps b then some (a.mergeTotal b) else none

/-- A timestamp `x` is covered by a list of ranges when it lies (inclusively)
inside one of them.  This is the set-of-instants reading of the
`date_ranges` coverage table. -/
def covered (l : List DateRange) (x : Int) : Prop :=
  ∃ r ∈ l, r.start ≤ x ∧ x ≤ r.end_

instance (l : List DateRange) (x : Int) : Decidable (covered l x) :=
  inferInstanceAs (Decidable (∃ r ∈ l, r.start ≤ x ∧ x ≤ r.end_))

/-- The loop of `EmailCache.find_missing_ranges` (lines 128-139): walk the
cached ranges with a cursor `current`, emitting `DateRange(current,
cached_range.start)` whenever `current < cached_range.start`, then advancing
`current = max(current, cached_range.end)`; after the walk, emit the trailing
`DateRange(current, target_range.end)` when `current < target_range.end`. -/
def fmrAux (targetEnd : Int) (current : Int) : List DateRange → List DateRange
  | [] => if current < targetEnd then [⟨current, targetEnd⟩] else []
  | c :: rest =>
      if current < c.start then
        ⟨current, c.start⟩ :: fmrAux targetEnd (max current c.end_) rest
      else
        fmrAux targetEnd (max current c.end_) rest

/-- Embedding of `EmailCache.find_missing_ranges` (lines 122-139): an empty
cache yields `[target_range]`; otherwise the cursor walk of `fmrAux` runs
from `target_range.start`. -/
def findMissingRanges (cached : List DateRange) (target : DateRange) :
    List DateRange :=
  match cached with
  | [] => [target]
  | _ :: _ => fmrAux target.end_ target.start cached

/-- One step of the stable sort-by-start used to model
`ranges.sort(key=lambda r: r.start)` (line 192): insert a range before the
first element with a strictly later start, keeping ties in their original
order (Python list sort is stable). -/
def insertByStart (r : DateRange) : List DateRange → List DateRange
  | [] => [r]
  | x :: xs => if r.start ≤ x.start then r :: x :: xs else x :: insertByStart r xs

/-- Stable insertion sort by `start`, modelling the in-place
`ranges.sort(key=lambda r: r.start)` of `_update_date_ranges`. -/
def sortByStart : List DateRange → List DateRange
  | [] => []
  | r :: rest => insertByStart r (sortByStart rest)

/-- The merging loop of `_update_date_ranges` (lines 195-204): keep a
`current` range, merge it with the next when they overlap, otherwise flush it
to the output and continue from the next.  `mergeTotal` is used because the
source calls `current.merge(next_range)` only under its `overlaps` guard,
where the raising branch of `merge` is unreachable. -/
def mergeRangesAux (current : DateRange) : List DateRange → List DateRange
  | [] => [current]
  | n :: rest =>
      if current.overlaps n then mergeRangesAux (current.mergeTotal n) rest
      else current :: mergeRangesAux n rest

/-- The merge pass over the sorted list (lines 195-204 with the `if ranges:`
guard; the empty case returns the empty output list). -/
def mergeRanges : List DateRange → List DateRange
  | [] => []
  | r :: rest => mergeRangesAux r rest

/-- Embedding of `EmailCache._update_date_ranges` (lines 185-213): append the
new range to the cached ones, sort by start, merge overlapping neighbours;
the result replaces the whole `date_ranges` table. -/
def updateDateRanges (ranges : List DateRange) (newRange : DateRange) :
    List DateRange :=
  mergeRanges (sortByStart (ranges ++ [newRange]))

/-- Embedding of the `EmailMetadata` dataclass (lines 50-58) and of a row of
the `emails` table: `message_id` is the primary key, `date` is the message
timestamp, and `gmail_link` is nullable (`None` is modelled by `none`).
The bookkeeping column `cached_at` plays no role in any claim and is
omitted. -/
structure EmailMetadata where
  message_id : String
  from_address : String
  subject : String
  date : Int
  gmail_link : Option String
deriving DecidableEq, Repr

/-- State of the SQLite database: the `emails` table (a list of rows; the
primary key uniqueness is maintained by `upsert_email`) and the
`date_ranges` coverage table. -/
structure CacheState where
  emailsTbl : List EmailMetadata
  dateRanges : List DateRange
deriving DecidableEq, Repr

/-- One row of the `INSERT OR REPLACE INTO emails` statement (lines
155-172): replace the row with the same `message_id`, or append the new
row. -/
def upsertEmail (tbl : List EmailMetadata) (e : EmailMetadata) :
    List EmailMetadata :=
  if tbl.any (fun r => r.message_id == e.message_id) then
    tbl.map (fun r => if r.message_id == e.message_id then e else r)
  else tbl ++ [e]

/-- Embedding of `EmailCache.store_emails` (lines 141-183).  The source runs
the bulk upsert and `_update_date_ranges` between one `BEGIN TRANSACTION`
and one `commit`, rolling back and re-raising on failure; SQLite's rollback
restores the pre-transaction state.  The commit outcome is an environment
input modelled by `commitOk`; the result pairs the raised error (if any)
with the database state after the call. -/
def storeEmails (st : CacheState) (emails : List EmailMetadata)
    (dateRange : DateRange) (commitOk : Bool) : Option String × CacheState :=
  if emails.isEmpty then (none, st)
  else
    let st1 : CacheState :=
      { st with emailsTbl := emails.foldl upsertEmail st.emailsTbl }
    let st2 : CacheState :=
      { st1 with dateRanges := updateDateRanges st1.dateRanges dateRange }
    if commitOk then (none, st2) else (some "commit failed", st)

/-- Unanchored regular-expression search, modelling Python's
`re.search(pattern, text)` used by the SQL `REGEXP` function (line 228): the
compiled pattern is abstracted as its whole-string matching function `full`,
and `re.search` succeeds when some contiguous substring matches. -/
def containsMatch (full : List Char → Bool) (text : List Char) : Bool :=
  text.tails.any (fun suf => suf.inits.any full)

/-- Embedding of `EmailCache.search_emails` (lines 215-241): select the rows
whose `from_address` has an unanchored match of the pattern, and — when a
date range is given — whose `date` satisfies `date >= start AND date <=
end`.  The subject column is never consulted. -/
def searchEmails (full : List Char → Bool) (dateRange : Option DateRange)
    (tbl : List EmailMetadata) : List EmailMetadata :=
  tbl.filter (fun e =>
    containsMatch full e.from_address.data
    && match dateRange with
       | none => true
       | some w => decide (w.start ≤ e.date) && decide (e.date ≤ w.end_))

/-- Embedding of the `emails` half of `EmailCache.cleanup_old_data` (lines
249-251): `DELETE FROM emails WHERE date < cutoff` keeps exactly the rows
whose date is not before the cutoff. -/
def cleanupEmails (cutoff : Int) (tbl : List EmailMetadata) :
    List EmailMetadata :=
  tbl.filter (fun e => !decide (e.date < cutoff))

/-- Embedding of the `date_ranges` half of `EmailCache.cleanup_old_data`
(lines 253-267), in the source's statement order: first
`UPDATE date_ranges SET start_date = cutoff WHERE start_date < cutoff`,
then `DELETE FROM date_ranges WHERE end_date < cutoff`. -/
def cleanupRanges (cutoff : Int) (ranges : List DateRange) :
    List DateRange :=
  (ranges.map (fun r =>
      if r.start < cutoff then ⟨cutoff, r.end_⟩ else r)).filter
    (fun r => !decide (r.end_ < cutoff))

/-- Whitespace test of Python's `str.strip()` (space, tab, newline, carriage
return, vertical tab, form feed). -/
def pyIsSpace (c : Char) : Bool :=
  c == ' ' || c == '\t' || c == '\n' || c == '\r'
    || c == Char.ofNat 11 || c == Char.ofNat 12

/-- Python's `str.strip()` with no argument, as used on the `Message-ID`
header (line 387): drop whitespace from both ends. -/
def pyStrip (s : String) : String :=
  ⟨((s.data.dropWhile pyIsSpace).reverse.dropWhile pyIsSpace).reverse⟩

/-- One decoded header block handed back by the header-decoder collaborator
for a fetched message (spec section 6): each field is the result of the
out-of-scope low-level decoding, with `""` standing for an absent or empty
`Message-ID`/`From`, `subject_raw` already defaulted to `"(No Subject)"`
when the header is missing (line 389-391), and `date_raw = none` when the
`Date` header is absent or unparseable. -/
structure RawHeader where
  message_id : String
  from_raw : String
  subject_raw : String
  date_raw : Option Int
deriving DecidableEq, Repr

/-- Embedding of `IMAPClient._parse_date` (lines 437-447): a decoded date is
returned as is; an absent or unparseable one falls back to
`pendulum.now("UTC")`, passed in as `now`. -/
def parseDate (dateRaw : Option Int) (now : Int) : Int :=
  match dateRaw with
  | none => now
  | some t => t

/-- Truthiness of the parsed date in `all([message_id, from_address, date])`
(line 401): `date` is a `pendulum.DateTime` object there and Python datetime
objects are always truthy, so the test never fails on the date. -/
def dateTruthy (_ : Int) : Bool :=
  true

/-- Embedding of `IMAPClient._generate_gmail_link` (lines 314-327): `None`
for an empty subject, otherwise the fixed Gmail search URL with the
percent-encoded subject; the encoding itself (`urllib.parse.quote`) is an
out-of-scope collaborator passed in as `quote`. -/
def generateGmailLink (quote : String → String) (subject : String) :
    Option String :=
  if subject == "" then none
  else some ("https://mail.google.com/mail/u/0/#search/subject%3A"
    ++ quote subject)

/-- The record built from one decoded header in `IMAPClient.fetch_emails`
(lines 386-410): `Message-ID` is stripped, the date parsed with the `now`
fallback, and the Gmail link derived from the double-quoted subject when the
subject is non-empty. -/
def buildRecord (quote : String → String) (now : Int) (h : RawHeader) :
    EmailMetadata :=
  { message_id := pyStrip h.message_id
    from_address := h.from_raw
    subject := h.subject_raw
    date := parseDate h.date_raw now
    gmail_link :=
      if h.subject_raw == "" then none
      else generateGmailLink quote ("\"" ++ h.subject_raw ++ "\"") }

/-- Acceptance test `all([message_id, from_address, date])` of line 401:
non-empty strings are truthy, and the date is always truthy. -/
def accepts (r : EmailMetadata) : Bool :=
  !(r.message_id == "") && !(r.from_address == "") && dateTruthy r.date

/-- Embedding of the per-batch loop of `IMAPClient.fetch_emails` (lines
379-413): an absent header slot (`if not header_data[j]: continue`) is
skipped, every present header is decoded, and the record is appended exactly
when the acceptance test passes.  `hs` lists the header slots of the batch
in order (`none` for an absent retrieval). -/
def processHeaders (quote : String → String) (now : Int) :
    List (Option RawHeader) → List EmailMetadata
  | [] => []
  | none :: rest => processHeaders quote now rest
  | some h :: rest =>
      if accepts (buildRecord quote now h) then
        buildRecord quote now h :: processHeaders quote now rest
      else processHeaders quote now rest

/-- The per-slot outcome of the batch loop, for stating C5: an absent slot
or a rejected decode yields no record, an accepted decode yields its
record. -/
def headerToRecord (quote : String → String) (now : Int)
    (slot : Option RawHeader) : Option EmailMetadata :=
  match slot with
  | none => none
  | some h =>
      if accepts (buildRecord quote now h) then
        some (buildRecord quote now h)
      else none

/-- One attempted effect of `EmailSearchService.search` (lines 470-516), in
program order: an IMAP fetch for a missing range (line 502), a cache store
for a range whose fetch returned records (lines 503-504), and the final
cache search that is the first and only point where the regex pattern is
used (line 509; an invalid pattern raises there, inside
`EmailCache.search_emails`). -/
inductive SearchStep where
  | imapFetch : DateRange → SearchStep
  | storeStep : DateRange → SearchStep
  | cacheSearch : Bool → SearchStep
deriving DecidableEq, Repr

/-- The effects attempted for one missing range in the fetch loop (lines
500-506): the IMAP fetch always runs; the store runs only when the fetch
returned a non-empty record list. -/
def gapSteps (fetched : DateRange → List EmailMetadata) (g : DateRange) :
    List SearchStep :=
  SearchStep.imapFetch g ::
    (if (fetched g).isEmpty then [] else [SearchStep.storeStep g])

/-- Effect trace of `EmailSearchService.search` (lines 470-516):
`find_missing_ranges` decides the gaps, each gap is fetched (and stored when
non-empty), and only then is the pattern consulted by the cache search.
`patternValid` records whether the pattern compiles (`false` models a
syntactically invalid regex, whose error surfaces at the final step);
`fetched` abstracts the IMAP fetch results. -/
def searchTrace (patternValid : Bool)
    (fetched : DateRange → List EmailMetadata) (cached : List DateRange)
    (target : DateRange) : List SearchStep :=
  ((findMissingRanges cached target).flatMap (gapSteps fetched))
    ++ [SearchStep.cacheSearch patternValid]

/-- A fetch-result function returning no records for any range. -/
def noEmails : DateRange → List EmailMetadata :=
  fun _ => []

/-- C8: `overlaps` is symmetric and holds exactly on the inclusive
(touching-counts) condition; `merge` is defined (returns a range rather than
raising) exactly when the ranges overlap, it is commutative, and on success
its start is the minimum of the starts and its end the maximum of the ends. -/
theorem dateRange_algebra (a b : DateRange)
    (_ha : a.start ≤ a.end_) (_hb : b.start ≤ b.end_) :
    (a.overlaps b = b.overlaps a)
    ∧ (a.overlaps b = true ↔ (a.start ≤ b.end_ ∧ a.end_ ≥ b.start))
    ∧ ((a.merge b).isNone ↔ a.overlaps b = false)
    ∧ (a.merge b = b.merge a)
    ∧ (∀ m, a.merge b = some m →
        m.start = min a.start b.start ∧ m.end_ = max a.end_ b.end_) := by
  have hsymm : a.overlaps b = b.overlaps a := by
    simp only [DateRange.overlaps, ge_iff_le]
    by_cases h1 : a.start ≤ b.end_ <;> by_cases h2 : b.start ≤ a.end_ <;>
      simp [h1, h2]
  refine ⟨hsymm, ?_, ?_, ?_, ?_⟩
  · simp [DateRange.overlaps, ge_iff_le]
  · by_cases h : a.overlaps b <;> simp [DateRange.merge, h]
  · by_cases h : a.overlaps b
    · rw [DateRange.merge, DateRange.merge, if_pos h, if_pos (hsymm ▸ h)]
      simp [DateRange.mergeTotal, min_comm, max_comm]
    · rw [DateRange.merge, DateRange.merge, if_neg h,
        if_neg (fun hc => h (hsymm ▸ hc))]
  · intro m hm
    rw [DateRange.merge] at hm
    by_cases h : a.overlaps b
    · rw [if_pos h] at hm
      cases hm
      exact ⟨rfl, rfl⟩
    · rw [if_neg h] at hm
      cases hm

/-- Witness for `dateRange_algebra` on the concrete overlapping ranges
`[0,2]` and `[1,3]`. -/
theorem dateRange_algebra_witness :
    (DateRange.mk 0 2).merge (DateRange.mk 1 3)
      = (DateRange.mk 1 3).merge (DateRange.mk 0 2)
    ∧ (DateRange.mk 0 3).start = min (0 : Int) 1
    ∧ (DateRange.mk 0 3).end_ = max (2 : Int) 3 :=
  ⟨(dateRange_algebra ⟨0, 2⟩ ⟨1, 3⟩ (by decide) (by decide)).2.2.2.1,
   (dateRange_algebra ⟨0, 2⟩ ⟨1, 3⟩ (by decide) (by decide)).2.2.2.2
      (DateRange.mk 0 3) (by decide)⟩

/-- Counterexample to C1 as stated: with the (canonical, one-element) cover
`[[20,30]]` lying entirely after the target `[0,10]`, the single returned
gap is `[0,20]`, whose end `20` is not within the target (`20 ≤ 10` fails):
the emitted gap `[cursor, cached.start]` is never clamped to `target.end`. -/
theorem findMissingRanges_cex :
    findMissingRanges [⟨20, 30⟩] ⟨0, 10⟩ = [⟨0, 20⟩]
    ∧ ¬ ((20 : Int) ≤ 10) := by
  constructor
  · rfl
  · decide

/-- Counterexample to C10 as stated: for the zero-length target `[5,5]` whose
instant `5` is not covered by the non-empty cover `[[7,9]]`, the result is
the non-empty `[[5,7]]` (a gap toward the later cover interval), not the
empty sequence claimed for every non-empty cover. -/
theorem findMissingRanges_degenerate_cex :
    findMissingRanges [⟨7, 9⟩] ⟨5, 5⟩ = [⟨5, 7⟩]
    ∧ ¬ covered [⟨7, 9⟩] 5
    ∧ findMissingRanges [⟨7, 9⟩] ⟨5, 5⟩ ≠ [] := by
  refine ⟨rfl, by decide, by decide⟩

/-- Every gap produced by the cursor walk starts at or after the cursor. -/
lemma fmrAux_start_ge :
    ∀ (l : List DateRange) (tend cur : Int) (g : DateRange),
      g ∈ fmrAux tend cur l → cur ≤ g.start := by
  intro l
  induction l with
  | nil =>
    intro tend cur g hg
    simp only [fmrAux] at hg
    by_cases h : cur < tend
    · rw [if_pos h] at hg
      simp at hg
      subst hg
      exact le_refl _
    · rw [if_neg h] at hg
      simp at hg
  | cons c rest ih =>
    intro tend cur g hg
    simp only [fmrAux] at hg
    by_cases h : cur < c.start
    · rw [if_pos h] at hg
      rcases List.mem_cons.1 hg with hgh | hgt
      · subst hgh; exact le_refl _
      · exact le_trans (le_max_left _ _) (ih tend _ g hgt)
    · rw [if_neg h] at hg
      exact le_trans (le_max_left _ _) (ih tend _ g hg)

/-- When every cached range starts at or before the target end, every gap is
well formed and ends at or before the target end. -/
lemma fmrAux_bounds :
    ∀ (l : List DateRange) (tend cur : Int),
      (∀ r ∈ l, r.start ≤ tend) →
      ∀ g ∈ fmrAux tend cur l, g.start ≤ g.end_ ∧ g.end_ ≤ tend := by
  intro l
  induction l with
  | nil =>
    intro tend cur _ g hg
    simp only [fmrAux] at hg
    by_cases h : cur < tend
    · rw [if_pos h] at hg
      simp at hg
      subst hg
      exact ⟨le_of_lt h, le_refl _⟩
    · rw [if_neg h] at hg
      simp at hg
  | cons c rest ih =>
    intro tend cur hcl g hg
    have hcst : c.start ≤ tend := hcl c (List.mem_cons_self c rest)
    have hrest : ∀ r ∈ rest, r.start ≤ tend :=
      fun r hr => hcl r (List.mem_cons_of_mem c hr)
    simp only [fmrAux] at hg
    by_cases h : cur < c.start
    · rw [if_pos h] at hg
      rcases List.mem_cons.1 hg with hgh | hgt
      · subst hgh; exact ⟨le_of_lt h, hcst⟩
      · exact ih tend _ hrest g hgt
    · rw [if_neg h] at hg
      exact ih tend _ hrest g hg

/-- When the cached ranges are well formed, consecutive gaps are separated:
each gap ends at or before the next one starts. -/
lemma fmrAux_pairwise :
    ∀ (l : List DateRange) (tend cur : Int),
      (∀ r ∈ l, r.start ≤ r.end_) →
      (fmrAux tend cur l).Pairwise (fun a b => a.end_ ≤ b.start) := by
  intro l
  induction l with
  | nil =>
    intro tend cur _
    simp only [fmrAux]
    by_cases h : cur < tend
    · rw [if_pos h]; simp
    · rw [if_neg h]; simp
  | cons c rest ih =>
    intro tend cur hwf
    have hcwf : c.start ≤ c.end_ := hwf c (List.mem_cons_self c rest)
    have hrest : ∀ r ∈ rest, r.start ≤ r.end_ :=
      fun r hr => hwf r (List.mem_cons_of_mem c hr)
    simp only [fmrAux]
    by_cases h : cur < c.start
    · rw [if_pos h]
      refine List.pairwise_cons.2 ⟨?_, ih tend _ hrest⟩
      intro g hg
      have := fmrAux_start_ge rest tend (max cur c.end_) g hg
      calc (DateRange.mk cur c.start).end_ = c.start := rfl
        _ ≤ c.end_ := hcwf
        _ ≤ max cur c.end_ := le_max_right _ _
        _ ≤ g.start := this
    · rw [if_neg h]
      exact ih tend _ hrest

/-- Completeness of the cursor walk: an uncovered instant between the cursor
and the target end lands in some emitted gap — except in the degenerate
corner where the instant equals both the cursor and the target end, which the
hypothesis `hlast` rules out. -/
lemma fmrAux_complete :
    ∀ (l : List DateRange) (tend cur x : Int),
      ¬ covered l x → cur ≤ x → x ≤ tend → (x = tend → cur < tend) →
      covered (fmrAux tend cur l) x := by
  intro l
  induction l with
  | nil =>
    intro tend cur x _ hcx hxt hlast
    have hct : cur < tend := by
      rcases lt_or_eq_of_le hxt with h | h
      · exact lt_of_le_of_lt hcx h
      · exact hlast h
    simp only [fmrAux, if_pos hct]
    exact ⟨⟨cur, tend⟩, List.mem_singleton_self _, hcx, hxt⟩
  | cons c rest ih =>
    intro tend cur x hnc hcx hxt hlast
    have hncc : ¬ (c.start ≤ x ∧ x ≤ c.end_) :=
      fun hx => hnc ⟨c, List.mem_cons_self c rest, hx⟩
    have hncr : ¬ covered rest x := by
      rintro ⟨r, hr, hx⟩
      exact hnc ⟨r, List.mem_cons_of_mem c hr, hx⟩
    simp only [fmrAux]
    by_cases h : cur < c.start
    · rw [if_pos h]
      by_cases hxc : x ≤ c.start
      · exact ⟨⟨cur, c.start⟩, List.mem_cons_self _ _, hcx, hxc⟩
      · push_neg at hxc
        have hce : c.end_ < x := by
          by_contra hle
          push_neg at hle
          exact hncc ⟨le_of_lt hxc, hle⟩
        have hmax : max cur c.end_ ≤ x := max_le hcx (le_of_lt hce)
        have hlast' : x = tend → max cur c.end_ < tend :=
          fun he => max_lt (hlast he) (he ▸ hce)
        obtain ⟨r, hr, hx⟩ := ih tend (max cur c.end_) x hncr hmax hxt hlast'
        exact ⟨r, List.mem_cons_of_mem _ hr, hx⟩
    · rw [if_neg h]
      push_neg at h
      have hcsx : c.start ≤ x := le_trans h hcx
      have hce : c.end_ < x := by
        by_contra hle
        push_neg at hle
        exact hncc ⟨hcsx, hle⟩
      have hmax : max cur c.end_ ≤ x := max_le hcx (le_of_lt hce)
      have hlast' : x = tend → max cur c.end_ < tend :=
        fun he => max_lt (hlast he) (he ▸ hce)
      exact ih tend (max cur c.end_) x hncr hmax hxt hlast'

/-- C1 amended: for a canonical cover whose intervals all start at or before
the target end, and a target of positive length, the gaps of
`find_missing_ranges` lie within the target, are sorted with each gap ending
at or before the next begins, and contain every uncovered instant of the
target (so the target minus the gaps is contained in the covered part of the
target; the converse inclusion fails only at cover endpoints, which the
closed gaps may share). -/
theorem findMissingRanges_amended (cached : List DateRange)
    (target : DateRange)
    (_hsort : cached.Pairwise (fun a b => a.start ≤ b.start))
    (_hdisj : cached.Pairwise (fun a b => a.overlaps b = false))
    (hwf : ∀ r ∈ cached, r.start ≤ r.end_)
    (hclip : ∀ r ∈ cached, r.start ≤ target.end_)
    (ht : target.start < target.end_) :
    (∀ g ∈ findMissingRanges cached target,
        target.start ≤ g.start ∧ g.start ≤ g.end_ ∧ g.end_ ≤ target.end_)
    ∧ (findMissingRanges cached target).Pairwise
        (fun a b => a.end_ ≤ b.start)
    ∧ (∀ x : Int, target.start ≤ x → x ≤ target.end_ →
        ¬ covered cached x → covered (findMissingRanges cached target) x) := by
  match cached with
  | [] =>
    refine ⟨?_, ?_, ?_⟩
    · intro g hg
      simp only [findMissingRanges, List.mem_singleton] at hg
      subst hg
      exact ⟨le_refl _, le_of_lt ht, le_refl _⟩
    · simp [findMissingRanges]
    · intro x hx1 hx2 _
      exact ⟨target, List.mem_singleton_self _, hx1, hx2⟩
  | c :: rest =>
    have hrw : findMissingRanges (c :: rest) target
        = fmrAux target.end_ target.start (c :: rest) := rfl
    refine ⟨?_, ?_, ?_⟩
    · intro g hg
      rw [hrw] at hg
      exact ⟨fmrAux_start_ge _ _ _ g hg,
        fmrAux_bounds _ _ _ hclip g hg⟩
    · rw [hrw]
      exact fmrAux_pairwise _ _ _ hwf
    · intro x hx1 hx2 hnc
      rw [hrw]
      exact fmrAux_complete _ _ _ x hnc hx1 hx2 (fun _ => ht)

/-- Witness for `findMissingRanges_amended` on the cover `[[3,5]]` and target
`[0,10]`: the uncovered instant `1` is covered by the returned gaps. -/
theorem findMissingRanges_amended_witness :
    covered (findMissingRanges [⟨3, 5⟩] ⟨0, 10⟩) 1 :=
  (findMissingRanges_amended [⟨3, 5⟩] ⟨0, 10⟩ (by decide) (by decide)
      (by decide) (by decide) (by decide)).2.2 1 (by decide) (by decide)
      (by decide)

/-- The cursor walk emits nothing once every remaining cached range starts at
or before the cursor and the target end does not exceed the cursor. -/
lemma fmrAux_all_left :
    ∀ (l : List DateRange) (tend cur : Int),
      (∀ r ∈ l, r.start ≤ cur) → tend ≤ cur → fmrAux tend cur l = [] := by
  intro l
  induction l with
  | nil =>
    intro tend cur _ htc
    simp only [fmrAux]
    rw [if_neg (not_lt.2 htc)]
  | cons c rest ih =>
    intro tend cur hl htc
    have hc : c.start ≤ cur := hl c (List.mem_cons_self c rest)
    simp only [fmrAux]
    rw [if_neg (not_lt.2 hc)]
    exact ih tend (max cur c.end_)
      (fun r hr => le_trans (hl r (List.mem_cons_of_mem c hr))
        (le_max_left _ _))
      (le_trans htc (le_max_left _ _))

/-- C10 amended: for a zero-length target whose instant is not covered, an
empty cover yields the single zero-length gap `[target]`; a non-empty cover
yields the empty sequence provided every cached interval starts at or before
the instant (the trailing `cursor < target.end` test never fires).  A cached
interval starting strictly after the instant would instead produce a leading
gap toward it, as the counterexample shows. -/
theorem findMissingRanges_degenerate (cached : List DateRange)
    (target : DateRange) (hdeg : target.start = target.end_)
    (_hunc : ¬ covered cached target.start) :
    (cached = [] → findMissingRanges cached target = [target])
    ∧ ((∀ c ∈ cached, c.start ≤ target.start) → cached ≠ [] →
        findMissingRanges cached target = []) := by
  constructor
  · intro h
    subst h
    rfl
  · intro hall hne
    match cached, hne with
    | c :: rest, _ =>
      have : findMissingRanges (c :: rest) target
          = fmrAux target.end_ target.start (c :: rest) := rfl
      rw [this]
      exact fmrAux_all_left _ _ _ (fun r hr => hall r hr) (le_of_eq hdeg.symm)

/-- Witness for `findMissingRanges_degenerate`: the uncovered instant `5` of
the zero-length target `[5,5]` yields no gap against the non-empty cover
`[[0,1]]` lying entirely before it. -/
theorem findMissingRanges_degenerate_witness :
    findMissingRanges [⟨0, 1⟩] ⟨5, 5⟩ = [] :=
  (findMissingRanges_degenerate [⟨0, 1⟩] ⟨5, 5⟩ (by decide) (by decide)).2
    (by decide) (by decide)

lemma mem_insertByStart {x r : DateRange} :
    ∀ {l : List DateRange}, x ∈ insertByStart r l ↔ x = r ∨ x ∈ l := by
  intro l
  induction l with
  | nil => simp [insertByStart]
  | cons y ys ih =>
    simp only [insertByStart]
    by_cases h : r.start ≤ y.start
    · rw [if_pos h]
      simp
    · rw [if_neg h]
      simp only [List.mem_cons, ih]
      tauto

lemma mem_sortByStart {x : DateRange} :
    ∀ {l : List DateRange}, x ∈ sortByStart l ↔ x ∈ l := by
  intro l
  induction l with
  | nil => simp [sortByStart]
  | cons y ys ih =>
    simp only [sortByStart, mem_insertByStart, List.mem_cons, ih]

lemma sorted_insertByStart {r : DateRange} {l : List DateRange}
    (h : l.Pairwise (fun a b => a.start ≤ b.start)) :
    (insertByStart r l).Pairwise (fun a b => a.start ≤ b.start) := by
  induction l with
  | nil => simp [insertByStart]
  | cons y ys ih =>
    rcases List.pairwise_cons.1 h with ⟨hy, hys⟩
    simp only [insertByStart]
    by_cases hle : r.start ≤ y.start
    · rw [if_pos hle]
      refine List.pairwise_cons.2 ⟨?_, h⟩
      intro z hz
      rcases List.mem_cons.1 hz with hz | hz
      · subst hz; exact hle
      · exact le_trans hle (hy z hz)
    · rw [if_neg hle]
      push_neg at hle
      refine List.pairwise_cons.2 ⟨?_, ih hys⟩
      intro z hz
      rcases mem_insertByStart.1 hz with hz | hz
      · subst hz; exact le_of_lt hle
      · exact hy z hz

lemma sorted_sortByStart :
    ∀ (l : List DateRange),
      (sortByStart l).Pairwise (fun a b => a.start ≤ b.start) := by
  intro l
  induction l with
  | nil => simp [sortByStart]
  | cons y ys ih => exact sorted_insertByStart ih

/-- Canonicity of the merge sweep: starting from a well-formed `current`
that begins no later than any element of the (sorted, well-formed) remaining
list, the output ranges are strictly separated (`end < start` pairwise),
well formed, and start no earlier than `current`. -/
lemma mergeRangesAux_canonical :
    ∀ (l : List DateRange) (c : DateRange),
      (∀ x ∈ l, x.start ≤ x.end_) → c.start ≤ c.end_ →
      l.Pairwise (fun a b => a.start ≤ b.start) →
      (∀ x ∈ l, c.start ≤ x.start) →
      (mergeRangesAux c l).Pairwise (fun a b => a.end_ < b.start)
      ∧ (∀ g ∈ mergeRangesAux c l, g.start ≤ g.end_ ∧ c.start ≤ g.start) := by
  intro l
  induction l with
  | nil =>
    intro c _ hc _ _
    refine ⟨by simp [mergeRangesAux], ?_⟩
    intro g hg
    simp only [mergeRangesAux, List.mem_singleton] at hg
    subst hg
    exact ⟨hc, le_refl _⟩
  | cons n rest ih =>
    intro c hwf hc hp hcs
    have hnwf : n.start ≤ n.end_ := hwf n (List.mem_cons_self n rest)
    have hrwf : ∀ x ∈ rest, x.start ≤ x.end_ :=
      fun x hx => hwf x (List.mem_cons_of_mem n hx)
    rcases List.pairwise_cons.1 hp with ⟨hn, hrp⟩
    have hcn : c.start ≤ n.start := hcs n (List.mem_cons_self n rest)
    simp only [mergeRangesAux]
    by_cases hov : c.overlaps n
    · rw [if_pos hov]
      have hms : (c.mergeTotal n).start = c.start := by
        simp [DateRange.mergeTotal, min_eq_left hcn]
      have hmwf : (c.mergeTotal n).start ≤ (c.mergeTotal n).end_ := by
        simp only [DateRange.mergeTotal]
        exact le_trans (min_le_left _ _) (le_trans hc (le_max_left _ _))
      have hmcs : ∀ x ∈ rest, (c.mergeTotal n).start ≤ x.start := by
        intro x hx
        rw [hms]
        exact le_trans hcn (hn x hx)
      obtain ⟨h1, h2⟩ := ih (c.mergeTotal n) hrwf hmwf hrp hmcs
      refine ⟨h1, ?_⟩
      intro g hg
      obtain ⟨hg1, hg2⟩ := h2 g hg
      exact ⟨hg1, by rw [← hms]; exact hg2⟩
    · rw [if_neg hov]
      have hsep : c.end_ < n.start := by
        have : ¬ (c.start ≤ n.end_ ∧ c.end_ ≥ n.start) := by
          intro hx
          exact hov (by simp [DateRange.overlaps, hx.1, hx.2])
        rcases not_and_or.1 this with hx | hx
        · push_neg at hx
          exact absurd (le_trans hcn hnwf) (not_le.2 hx)
        · push_neg at hx
          exact hx
      obtain ⟨h1, h2⟩ := ih n hrwf hnwf hrp hn
      refine ⟨List.pairwise_cons.2 ⟨?_, h1⟩, ?_⟩
      · intro g hg
        obtain ⟨_, hg2⟩ := h2 g hg
        exact lt_of_lt_of_le hsep hg2
      · intro g hg
        rcases List.mem_cons.1 hg with hg | hg
        · subst hg; exact ⟨hc, le_refl _⟩
        · obtain ⟨hg1, hg2⟩ := h2 g hg
          exact ⟨hg1, le_trans hcn hg2⟩

/-- The merge sweep never loses coverage: every instant covered by
`current :: l` is covered by the sweep's output. -/
lemma mergeRangesAux_covers :
    ∀ (l : List DateRange) (c : DateRange) (x : Int),
      covered (c :: l) x → covered (mergeRangesAux c l) x := by
  intro l
  induction l with
  | nil =>
    intro c x hx
    simpa [mergeRangesAux, covered] using hx
  | cons n rest ih =>
    intro c x hx
    simp only [mergeRangesAux]
    by_cases hov : c.overlaps n
    · rw [if_pos hov]
      refine ih (c.mergeTotal n) x ?_
      obtain ⟨r, hr, hx1, hx2⟩ := hx
      rcases List.mem_cons.1 hr with hr | hr
      · rw [hr] at hx1 hx2
        exact ⟨c.mergeTotal n, List.mem_cons_self _ _,
          le_trans (min_le_left _ _) hx1,
          le_trans hx2 (le_max_left _ _)⟩
      rcases List.mem_cons.1 hr with hr | hr
      · rw [hr] at hx1 hx2
        exact ⟨c.mergeTotal n, List.mem_cons_self _ _,
          le_trans (min_le_right _ _) hx1,
          le_trans hx2 (le_max_right _ _)⟩
      · exact ⟨r, List.mem_cons_of_mem _ hr, hx1, hx2⟩
    · rw [if_neg hov]
      obtain ⟨r, hr, hx1, hx2⟩ := hx
      rcases List.mem_cons.1 hr with hr | hr
      · subst hr
        exact ⟨r, List.mem_cons_self _ _, hx1, hx2⟩
      · obtain ⟨r', hr', hx'⟩ := ih n x ⟨r, hr, hx1, hx2⟩
        exact ⟨r', List.mem_cons_of_mem _ hr', hx'⟩

/-- C4: starting from a canonical state (pairwise non-overlapping ranges,
sorted ascending by start, all well formed), `_update_date_ranges` with any
well-formed new range yields a state that is again sorted ascending by
start and pairwise non-overlapping (with well-formed ranges), and every
instant covered before — as well as every instant of the new range — is
still covered afterwards. -/
theorem updateDateRanges_canonical (ranges : List DateRange)
    (newRange : DateRange)
    (_hsort : ranges.Pairwise (fun a b => a.start ≤ b.start))
    (_hdisj : ranges.Pairwise (fun a b => a.overlaps b = false))
    (hwf : ∀ r ∈ ranges, r.start ≤ r.end_)
    (hnwf : newRange.start ≤ newRange.end_) :
    ((updateDateRanges ranges newRange).Pairwise
        (fun a b => a.start ≤ b.start)
      ∧ (updateDateRanges ranges newRange).Pairwise
          (fun a b => a.overlaps b = false)
      ∧ ∀ r ∈ updateDateRanges ranges newRange, r.start ≤ r.end_)
    ∧ (∀ x : Int,
        (covered ranges x ∨ (newRange.start ≤ x ∧ x ≤ newRange.end_)) →
        covered (updateDateRanges ranges newRange) x) := by
  have hmem : newRange ∈ sortByStart (ranges ++ [newRange]) := by
    rw [mem_sortByStart]
    exact List.mem_append.2 (Or.inr (List.mem_singleton_self _))
  have hswf : ∀ x ∈ sortByStart (ranges ++ [newRange]), x.start ≤ x.end_ := by
    intro x hx
    rcases List.mem_append.1 (mem_sortByStart.1 hx) with hx | hx
    · exact hwf x hx
    · rw [List.mem_singleton] at hx
      subst hx
      exact hnwf
  have hsp := sorted_sortByStart (ranges ++ [newRange])
  rw [updateDateRanges]
  match hs : sortByStart (ranges ++ [newRange]) with
  | [] =>
    rw [hs] at hmem
    simp at hmem
  | h :: t =>
    rw [hs] at hswf hsp
    rcases List.pairwise_cons.1 hsp with ⟨hh, htp⟩
    have hcanon := mergeRangesAux_canonical t h
      (fun x hx => hswf x (List.mem_cons_of_mem h hx))
      (hswf h (List.mem_cons_self h t)) htp hh
    have hout : mergeRanges (h :: t) = mergeRangesAux h t := rfl
    refine ⟨⟨?_, ?_, ?_⟩, ?_⟩
    · rw [hout]
      refine hcanon.1.imp_of_mem ?_
      intro a b ha _ hab
      exact le_trans (hcanon.2 a ha).1 (le_of_lt hab)
    · rw [hout]
      refine hcanon.1.imp ?_
      intro a b hab
      simp only [DateRange.overlaps, Bool.and_eq_false_iff,
        decide_eq_false_iff_not, ge_iff_le]
      exact Or.inr (not_le.2 hab)
    · intro r hr
      rw [hout] at hr
      exact (hcanon.2 r hr).1
    · intro x hx
      have hcov : covered (h :: t) x := by
        rw [← hs]
        have : covered (ranges ++ [newRange]) x := by
          rcases hx with ⟨r, hr, hx1, hx2⟩ | ⟨hx1, hx2⟩
          · exact ⟨r, List.mem_append.2 (Or.inl hr), hx1, hx2⟩
          · exact ⟨newRange,
              List.mem_append.2 (Or.inr (List.mem_singleton_self _)),
              hx1, hx2⟩
        obtain ⟨r, hr, hx'⟩ := this
        exact ⟨r, mem_sortByStart.2 hr, hx'⟩
      rw [hout]
      exact mergeRangesAux_covers t h x hcov

/-- Witness for `updateDateRanges_canonical`: adding `[4,10]` to the
canonical cover `[[1,5]]` keeps instant `2` covered. -/
theorem updateDateRanges_canonical_witness :
    covered (updateDateRanges [⟨1, 5⟩] ⟨4, 10⟩) 2 :=
  (updateDateRanges_canonical [⟨1, 5⟩] ⟨4, 10⟩ (by decide) (by decide)
      (by decide) (by decide)).2 2 (by decide)

/-- C3: for a non-empty batch, `store_emails` performs the record upserts and
the coverage update as one transaction: a failed commit surfaces an error
and leaves both tables exactly as before, while a successful commit applies
both updates together. -/
theorem storeEmails_atomic (st : CacheState) (emails : List EmailMetadata)
    (dateRange : DateRange) (hne : emails ≠ []) :
    storeEmails st emails dateRange false = (some "commit failed", st)
    ∧ storeEmails st emails dateRange true =
        (none,
          { emailsTbl := emails.foldl upsertEmail st.emailsTbl,
            dateRanges := updateDateRanges st.dateRanges dateRange }) := by
  have hni : emails.isEmpty = false := by
    cases emails with
    | nil => exact absurd rfl hne
    | cons e es => rfl
  constructor
  · rw [storeEmails, hni]
    rfl
  · rw [storeEmails, hni]
    rfl

/-- Witness for `storeEmails_atomic`: a failed commit of a one-row batch
leaves the concrete empty state untouched. -/
theorem storeEmails_atomic_witness :
    storeEmails ⟨[], []⟩ [⟨"id1", "a@b", "s", 3, none⟩] ⟨0, 5⟩ false
      = (some "commit failed", ⟨[], []⟩) :=
  (storeEmails_atomic ⟨[], []⟩ [⟨"id1", "a@b", "s", 3, none⟩] ⟨0, 5⟩
      (by decide)).1

lemma containsMatch_iff (full : List Char → Bool) (text : List Char) :
    containsMatch full text = true
      ↔ ∃ pre mid post, text = pre ++ mid ++ post ∧ full mid = true := by
  unfold containsMatch
  rw [List.any_eq_true]
  constructor
  · rintro ⟨suf, hsuf, hany⟩
    rw [List.any_eq_true] at hany
    obtain ⟨mid, hmid, hfull⟩ := hany
    rw [List.mem_tails] at hsuf
    rw [List.mem_inits] at hmid
    obtain ⟨pre, hpre⟩ : ∃ t, t ++ suf = text := hsuf
    obtain ⟨post, hpost⟩ : ∃ t, mid ++ t = suf := hmid
    refine ⟨pre, mid, post, ?_, hfull⟩
    rw [← hpre, ← hpost, List.append_assoc]
  · rintro ⟨pre, mid, post, htext, hfull⟩
    refine ⟨mid ++ post, ?_, ?_⟩
    · rw [List.mem_tails]
      exact ⟨pre, by rw [htext, List.append_assoc]⟩
    · rw [List.any_eq_true]
      refine ⟨mid, ?_, hfull⟩
      rw [List.mem_inits]
      exact ⟨post, rfl⟩

/-- C6: `search_emails` returns exactly the stored records whose
`from_address` contains an unanchored match of the pattern and — when a
window is given — whose date lies inclusively within it; the subject never
influences the result (rewriting every subject commutes with the search). -/
theorem searchEmails_spec (full : List Char → Bool)
    (dateRange : Option DateRange) (tbl : List EmailMetadata)
    (e : EmailMetadata) (f : EmailMetadata → String) :
    (e ∈ searchEmails full dateRange tbl ↔
      e ∈ tbl
      ∧ (∃ pre mid post, e.from_address.data = pre ++ mid ++ post
          ∧ full mid = true)
      ∧ ∀ w, dateRange = some w → w.start ≤ e.date ∧ e.date ≤ w.end_)
    ∧ searchEmails full dateRange (tbl.map (fun r => { r with subject := f r }))
        = (searchEmails full dateRange tbl).map
            (fun r => { r with subject := f r }) := by
  constructor
  · rw [searchEmails, List.mem_filter]
    refine and_congr_right (fun _ => ?_)
    rw [Bool.and_eq_true, containsMatch_iff]
    refine and_congr_right (fun _ => ?_)
    cases dateRange with
    | none => simp
    | some w =>
      simp only [Bool.and_eq_true, decide_eq_true_eq]
      constructor
      · intro h w' hw'
        cases hw'
        exact h
      · intro h
        exact h w rfl
  · rw [searchEmails, searchEmails,
      List.filter_map (fun r => { r with subject := f r } : EmailMetadata → EmailMetadata) tbl]
    rfl

/-- C7: the retention trim drops every coverage interval ending before the
cutoff, raises the start of every straddling interval to exactly the cutoff
while keeping its end, leaves intervals at or after the cutoff unchanged,
and deletes exactly the email rows dated before the cutoff. -/
theorem cleanupOldData_spec (cutoff : Int) (ranges : List DateRange)
    (tbl : List EmailMetadata) (e : EmailMetadata) :
    cleanupRanges cutoff ranges
      = ranges.filterMap (fun r =>
          if r.end_ < cutoff then none
          else if r.start < cutoff then some ⟨cutoff, r.end_⟩
          else some r)
    ∧ (e ∈ cleanupEmails cutoff tbl ↔ e ∈ tbl ∧ cutoff ≤ e.date) := by
  constructor
  · induction ranges with
    | nil => rfl
    | cons r rest ih =>
      simp only [cleanupRanges, List.map_cons, List.filter_cons,
        List.filterMap_cons] at ih ⊢
      by_cases hs : r.start < cutoff
      · rw [if_pos hs]
        by_cases he : r.end_ < cutoff
        · rw [if_pos he]
          have : (!decide ((DateRange.mk cutoff r.end_).end_ < cutoff))
              = false := by
            simp [he]
          rw [this, ih]
          rfl
        · rw [if_neg he, if_pos hs]
          have : (!decide ((DateRange.mk cutoff r.end_).end_ < cutoff))
              = true := by
            simp [he]
          rw [this, ih]
          rfl
      · rw [if_neg hs]
        by_cases he : r.end_ < cutoff
        · rw [if_pos he]
          have : (!decide (r.end_ < cutoff)) = false := by simp [he]
          rw [this, ih]
          rfl
        · rw [if_neg he, if_neg hs]
          have : (!decide (r.end_ < cutoff)) = true := by simp [he]
          rw [this, ih]
          rfl
  · rw [cleanupEmails, List.mem_filter]
    simp [not_lt]

/-- C5: the batch loop never fails — it returns exactly the per-slot accepted
records in order, so an absent retrieval or a failed decode only removes its
own message; in particular a batch of three slots whose middle retrieval is
absent yields exactly the two remaining records. -/
theorem processHeaders_tolerant (quote : String → String) (now : Int)
    (hs : List (Option RawHeader)) :
    processHeaders quote now hs = hs.filterMap (headerToRecord quote now)
    ∧ (processHeaders quote now hs).length ≤ hs.length
    ∧ processHeaders quote now
        [some ⟨"idA", "alice@example.com", "hi", some 3⟩, none,
          some ⟨"idB", "bob@example.com", "yo", some 4⟩]
      = [buildRecord quote now ⟨"idA", "alice@example.com", "hi", some 3⟩,
          buildRecord quote now ⟨"idB", "bob@example.com", "yo", some 4⟩] := by
  have hmain : ∀ l : List (Option RawHeader),
      processHeaders quote now l = l.filterMap (headerToRecord quote now) := by
    intro l
    induction l with
    | nil => rfl
    | cons slot rest ih =>
      cases slot with
      | none =>
        rw [List.filterMap_cons]
        exact ih
      | some h =>
        rw [List.filterMap_cons]
        simp only [processHeaders, headerToRecord]
        by_cases hacc : accepts (buildRecord quote now h) = true
        · rw [if_pos hacc, if_pos hacc, ih]
        · rw [if_neg hacc, if_neg hacc, ih]
  refine ⟨hmain hs, ?_, ?_⟩
  · rw [hmain hs]
    exact List.length_filterMap_le _ _
  · rfl

/-- C9 (with C5's acceptance rule): date parsing is total with the `now`
fallback, every returned record has a non-empty `message_id` and
`from_address`, a header with non-empty (stripped) identity and sender is
accepted regardless of its date field, and a missing date yields the `now`
timestamp rather than a rejection. -/
theorem processHeaders_date_safe (quote : String → String) (now : Int)
    (hs : List (Option RawHeader)) :
    (parseDate none now = now ∧ ∀ t : Int, parseDate (some t) now = t)
    ∧ (∀ e ∈ processHeaders quote now hs,
        e.message_id ≠ "" ∧ e.from_address ≠ "")
    ∧ (∀ h : RawHeader, pyStrip h.message_id ≠ "" → h.from_raw ≠ "" →
        processHeaders quote now (some h :: hs)
          = buildRecord quote now h :: processHeaders quote now hs)
    ∧ (∀ h : RawHeader, h.date_raw = none →
        (buildRecord quote now h).date = now) := by
  refine ⟨⟨rfl, fun _ => rfl⟩, ?_, ?_, ?_⟩
  · induction hs with
    | nil => intro e he; simp [processHeaders] at he
    | cons slot rest ih =>
      intro e he
      cases slot with
      | none => exact ih e he
      | some h =>
        simp only [processHeaders] at he
        by_cases hacc : accepts (buildRecord quote now h) = true
        · rw [if_pos hacc] at he
          rcases List.mem_cons.1 he with he | he
          · subst he
            simp only [accepts, buildRecord, dateTruthy, Bool.and_true,
              Bool.and_eq_true, Bool.not_eq_true',
              beq_eq_false_iff_ne] at hacc
            simp only [buildRecord]
            exact hacc
          · exact ih e he
        · rw [if_neg hacc] at he
          exact ih e he
  · intro h hmid hfrom
    have hacc : accepts (buildRecord quote now h) = true := by
      simp only [accepts, buildRecord, dateTruthy, Bool.and_true,
        Bool.and_eq_true, Bool.not_eq_true', beq_eq_false_iff_ne]
      exact ⟨hmid, hfrom⟩
    simp only [processHeaders, if_pos hacc]
  · intro h hd
    simp [buildRecord, parseDate, hd]

/-- Witness for `processHeaders_date_safe`: a header with identity and
sender but no parseable date is accepted, not rejected. -/
theorem processHeaders_date_safe_witness :
    processHeaders (fun s => s) 7 [some ⟨"idC", "carol@example.com", "", none⟩]
      = [buildRecord (fun s => s) 7 ⟨"idC", "carol@example.com", "", none⟩] :=
  (processHeaders_date_safe (fun s => s) 7 []).2.2.1
    ⟨"idC", "carol@example.com", "", none⟩ (by decide) (by decide)

/-- Counterexample to C2 as stated: with an invalid pattern
(`patternValid = false`), an empty cache and the target `[0,10]`, the
service still performs the IMAP fetch for the gap `[0,10]` before the
pattern is ever consulted — the trace contains the fetch, so no
precondition error precedes network access. -/
theorem searchTrace_cex :
    searchTrace false noEmails [] ⟨0, 10⟩
      = [SearchStep.imapFetch ⟨0, 10⟩, SearchStep.cacheSearch false]
    ∧ SearchStep.imapFetch ⟨0, 10⟩ ∈ searchTrace false noEmails [] ⟨0, 10⟩ := by
  refine ⟨rfl, ?_⟩
  decide

/-- C2 amended: `EmailSearchService.search` performs no pattern validation —
exactly the gaps of the target window are fetched over IMAP whether or not
the pattern is valid, and the pattern is consulted only at the final cache
search, where an invalid pattern's error surfaces from the store layer.
(In the source, validation happens earlier only in the interactive UI,
`get_search_parameters`, which re-prompts until the regex compiles.) -/
theorem searchTrace_amended (patternValid : Bool)
    (fetched : DateRange → List EmailMetadata) (cached : List DateRange)
    (target : DateRange) (g : DateRange) :
    (SearchStep.imapFetch g ∈ searchTrace patternValid fetched cached target
      ↔ g ∈ findMissingRanges cached target)
    ∧ (searchTrace patternValid fetched cached target).getLast?
        = some (SearchStep.cacheSearch patternValid) := by
  constructor
  · constructor
    · intro hm
      rcases List.mem_append.1 hm with hm | hm
      · rw [List.mem_flatMap] at hm
        obtain ⟨g', hg', hmem⟩ := hm
        rcases List.mem_cons.1 hmem with hmem | hmem
        · injection hmem with hgg
          subst hgg
          exact hg'
        · by_cases hf : (fetched g').isEmpty = true
          · rw [if_pos hf] at hmem
            simp at hmem
          · rw [if_neg hf] at hmem
            rcases List.mem_singleton.1 hmem with h
            cases h
      · rcases List.mem_singleton.1 hm with h
        cases h
    · intro hg
      refine List.mem_append.2 (Or.inl ?_)
      rw [List.mem_flatMap]
      exact ⟨g, hg, List.mem_cons_self _ _⟩
  · exact List.getLast?_concat _

end GmailSearch
